import Mathlib

/-!
Shallow embedding of the plonky2-sha256 split/spread gate library.

The repository provides, in `src/gates.rs`, the `Split4PartsGate` and
`SplitNibbleGate` constraint gates together with their witness generators,
and in `src/gadgets.rs` the circuit gadgets `add_u32_split`,
`add_u32_split_u16`, `add_u32_split_u8_spread` and the three bitwise
gadgets `xor3_u32_by_spread`, `maj_u32_by_spread`, `ch_u32_by_spread`.

Field elements are modelled as natural numbers below the Goldilocks prime
`P = 2^64 - 2^32 + 1` (the field plonky2's `RichField` is instantiated at),
with the field operations performed modulo `P`.  Witness semantics of a
gadget is modelled as the pure function computing the value of the wire the
gadget returns from the values of its input wires, exactly as the chain of
witness generators fills them in.

The `SplitU16Gate` and `SplitU8SpreadGate` gates are used by `src/gadgets.rs`
but their definitions are not among the provided sources; their witness
semantics is modelled from the spec (sections 4.3 and 4.4) and each such
definition is marked `Modelled from the spec:`.
-/

namespace PlonkySha

/-- Goldilocks prime `2^64 - 2^32 + 1`: the modulus of the coefficient
field plonky2's `RichField` circuits are built over. -/
def P : Nat := 2 ^ 64 - 2 ^ 32 + 1

/-- Field addition (`builder.add` / `+` on field elements). -/
def fadd (x y : Nat) : Nat := (x + y) % P

/-- Field multiplication (`builder.mul` / `*` on field elements). -/
def fmul (x y : Nat) : Nat := (x * y) % P

/-- Field subtraction (`builder.sub` / `-` on field elements):
`x - y` computed as `x + (P - y)` modulo `P`. -/
def fsub (x y : Nat) : Nat := (x + (P - y % P)) % P

/-- Modelled from the spec: the even-bit stream accumulated by the
`SplitU8SpreadGate` witness generator (spec section 4.4: "for i in 0..8,
read bits 2i and 2i+1 of x's canonical integer; accumulate even/odd in
spread form").  `evenSpread n x = Σ_{i<n} bit_{2i}(x)·4^i`; the generator
uses `n = 8`. -/
def evenSpread : Nat → Nat → Nat
  | 0, _ => 0
  | n + 1, x => x % 2 + 4 * evenSpread n (x / 4)

/-- Modelled from the spec: the `even` output wire of `SplitU8SpreadGate`'s
witness generator (spec section 4.4). -/
def splitU8SpreadEven (x : Nat) : Nat := evenSpread 8 x

/-- Modelled from the spec: the `odd` output wire of `SplitU8SpreadGate`'s
witness generator, holding bits `2i+1` of `x` in spread form
(spec section 4.4). -/
def splitU8SpreadOdd (x : Nat) : Nat := evenSpread 8 (x / 2)

/-- All-ones spread value on `n` lanes: `ones n = Σ_{i<n} 4^i`;
`ones 8 = 0x5555`, the `spread_full` constant of `ch_u8_spread`. -/
def ones : Nat → Nat
  | 0 => 0
  | n + 1 => 1 + 4 * ones n

/-- Modelled from the spec: the spread lookup-table semantics
`spread(b) = Σ_i bit_i(b)·4^i` (spec sections 4.4 and 9), on `n` bits of
the byte `b`; the table uses `n = 8`. -/
def spread : Nat → Nat → Nat
  | 0, _ => 0
  | n + 1, b => b % 2 + 4 * spread n (b / 2)

/-- Modelled from the spec: the `lo` output of the `SplitU16Gate` witness
generator, `lo = x mod 2^16` (spec sections 4.3 and 8). -/
def splitU16lo (x : Nat) : Nat := x % 2 ^ 16

/-- Modelled from the spec: the `hi` output of the `SplitU16Gate` witness
generator, `hi = x div 2^16` (spec sections 4.3 and 8). -/
def splitU16hi (x : Nat) : Nat := x / 2 ^ 16

/-- Modelled from the spec: the single degree-1 constraint of
`SplitU16Gate`, `x = lo + hi·2^16` evaluated over the field as
`x - (lo + hi·2^16)` (spec section 4.3).  This is the only constraint the
gadget `add_u32_split_u16` emits on its two outputs. -/
def SplitU16Gate.eval_unfiltered (x lo hi : Nat) : List Nat :=
  [fsub x (fadd lo (fmul hi (2 ^ 16 % P)))]

/-- Witness semantics of `xor3_u16_by_spread` (src/gadgets.rs lines
155-171): spread-split the three 16-bit operands, sum the even and the odd
streams, re-split each sum and recombine `2·odd_even + even_even`. -/
def xor3_u16_by_spread (a b c : Nat) : Nat :=
  let a_even := splitU8SpreadEven a
  let b_even := splitU8SpreadEven b
  let c_even := splitU8SpreadEven c
  let a_odd := splitU8SpreadOdd a
  let b_odd := splitU8SpreadOdd b
  let c_odd := splitU8SpreadOdd c
  let even := (a_even + b_even + c_even) % P
  let odd := (a_odd + b_odd + c_odd) % P
  let even_even := splitU8SpreadEven even
  let odd_even := splitU8SpreadEven odd
  (odd_even + odd_even + even_even) % P

/-- Witness semantics of `xor3_u32_by_spread` (src/gadgets.rs lines
173-189): split each operand into 16-bit halves, run the per-half spread
pipeline, recombine `res_hi·2^16 + res_lo`. -/
def xor3_u32_by_spread (a b c : Nat) : Nat :=
  let a_lo := splitU16lo a
  let a_hi := splitU16hi a
  let b_lo := splitU16lo b
  let b_hi := splitU16hi b
  let c_lo := splitU16lo c
  let c_hi := splitU16hi c
  let res_lo := xor3_u16_by_spread a_lo b_lo c_lo
  let res_hi := xor3_u16_by_spread a_hi b_hi c_hi
  let po16 := 2 ^ 16 % P
  (res_hi * po16 + res_lo) % P

/-- Witness semantics of `maj_u16_by_spread` (src/gadgets.rs lines
193-209): like `xor3_u16_by_spread` but the re-split keeps the odd (carry)
streams, recombining `2·odd_odd + even_odd`. -/
def maj_u16_by_spread (a b c : Nat) : Nat :=
  let a_even := splitU8SpreadEven a
  let b_even := splitU8SpreadEven b
  let c_even := splitU8SpreadEven c
  let a_odd := splitU8SpreadOdd a
  let b_odd := splitU8SpreadOdd b
  let c_odd := splitU8SpreadOdd c
  let even := (a_even + b_even + c_even) % P
  let odd := (a_odd + b_odd + c_odd) % P
  let even_odd := splitU8SpreadOdd even
  let odd_odd := splitU8SpreadOdd odd
  (odd_odd + odd_odd + even_odd) % P

/-- Witness semantics of `maj_u32_by_spread` (src/gadgets.rs lines
211-227). -/
def maj_u32_by_spread (a b c : Nat) : Nat :=
  let a_lo := splitU16lo a
  let a_hi := splitU16hi a
  let b_lo := splitU16lo b
  let b_hi := splitU16hi b
  let c_lo := splitU16lo c
  let c_hi := splitU16hi c
  let res_lo := maj_u16_by_spread a_lo b_lo c_lo
  let res_hi := maj_u16_by_spread a_hi b_hi c_hi
  let po16 := 2 ^ 16 % P
  (res_hi * po16 + res_lo) % P

/-- Witness semantics of `ch_u8_spread` (src/gadgets.rs lines 230-246):
on spread-form inputs, complement `a` against the constant `0x5555`, form
the partial sums `a+b` and `not_a+c`, take the odd (carry) stream of each,
add the two carry streams and keep the even (parity) stream of the sum. -/
def ch_u8_spread (a b c : Nat) : Nat :=
  let spread_full := 0x5555 % P
  let not_a := fsub spread_full a
  let a_plus_b := fadd a b
  let not_a_plus_c := fadd not_a c
  let a_plus_b_odd := splitU8SpreadOdd a_plus_b
  let not_a_plus_c_odd := splitU8SpreadOdd not_a_plus_c
  let odd_sum := fadd a_plus_b_odd not_a_plus_c_odd
  splitU8SpreadEven odd_sum

/-- Witness semantics of `ch_u16_by_spread` (src/gadgets.rs lines
249-264). -/
def ch_u16_by_spread (a b c : Nat) : Nat :=
  let a_even := splitU8SpreadEven a
  let b_even := splitU8SpreadEven b
  let c_even := splitU8SpreadEven c
  let a_odd := splitU8SpreadOdd a
  let b_odd := splitU8SpreadOdd b
  let c_odd := splitU8SpreadOdd c
  let res_even := ch_u8_spread a_even b_even c_even
  let res_odd := ch_u8_spread a_odd b_odd c_odd
  (res_odd + res_odd + res_even) % P

/-- Witness semantics of `ch_u32_by_spread` (src/gadgets.rs lines
267-283). -/
def ch_u32_by_spread (a b c : Nat) : Nat :=
  let a_lo := splitU16lo a
  let a_hi := splitU16hi a
  let b_lo := splitU16lo b
  let b_hi := splitU16hi b
  let c_lo := splitU16lo c
  let c_hi := splitU16hi c
  let res_lo := ch_u16_by_spread a_lo b_lo c_lo
  let res_hi := ch_u16_by_spread a_hi b_hi c_hi
  let po16 := 2 ^ 16 % P
  (res_hi * po16 + res_lo) % P

/-- Follows the spec's words for claim C3 ("folding the two partial sums'
parities"): the same shape as `ch_u8_spread` but keeping the even (parity)
stream of each partial sum instead of the odd (carry) stream the code
keeps.  Used only to compare the spec's description with the source. -/
def ch_u8_spread_parityFold (a b c : Nat) : Nat :=
  let spread_full := 0x5555 % P
  let not_a := fsub spread_full a
  let a_plus_b := fadd a b
  let not_a_plus_c := fadd not_a c
  let a_plus_b_even := splitU8SpreadEven a_plus_b
  let not_a_plus_c_even := splitU8SpreadEven not_a_plus_c
  let even_sum := fadd a_plus_b_even not_a_plus_c_even
  splitU8SpreadEven even_sum

/-- Follows the spec's words for claim C3: `ch_u16_by_spread` with the
parity-folding `ch_u8_spread_parityFold` substituted for `ch_u8_spread`. -/
def ch_u16_by_spread_parityFold (a b c : Nat) : Nat :=
  let a_even := splitU8SpreadEven a
  let b_even := splitU8SpreadEven b
  let c_even := splitU8SpreadEven c
  let a_odd := splitU8SpreadOdd a
  let b_odd := splitU8SpreadOdd b
  let c_odd := splitU8SpreadOdd c
  let res_even := ch_u8_spread_parityFold a_even b_even c_even
  let res_odd := ch_u8_spread_parityFold a_odd b_odd c_odd
  (res_odd + res_odd + res_even) % P

/-- Follows the spec's words for claim C3: `ch_u32_by_spread` computed by
"folding the two partial sums' parities" as the claim describes. -/
def ch_u32_by_spread_parityFold (a b c : Nat) : Nat :=
  let a_lo := splitU16lo a
  let a_hi := splitU16hi a
  let b_lo := splitU16lo b
  let b_hi := splitU16hi b
  let c_lo := splitU16lo c
  let c_hi := splitU16hi c
  let res_lo := ch_u16_by_spread_parityFold a_lo b_lo c_lo
  let res_hi := ch_u16_by_spread_parityFold a_hi b_hi c_hi
  let po16 := 2 ^ 16 % P
  (res_hi * po16 + res_lo) % P

namespace Split4PartsGate

/-- `Split4PartsGate::num_wires` (src/gates.rs line 73): `x, x0, x1, x2, x3`. -/
def num_wires : Nat := 5

/-- `Split4PartsGate::num_constants` (src/gates.rs line 76). -/
def num_constants : Nat := 0

/-- `Split4PartsGate::degree` (src/gates.rs line 79): only linear
constraints. -/
def degree : Nat := 1

/-- `Split4PartsGate::num_constraints` (src/gates.rs line 82). -/
def num_constraints : Nat := 1

/-- `Split4PartsGate::eval_unfiltered` (src/gates.rs lines 86-102): the
single constraint value `x - (x0 + x1·2^K1 + x2·2^K2 + x3·2^K3)` over the
field. -/
def eval_unfiltered (K1 K2 K3 x x0 x1 x2 x3 : Nat) : List Nat :=
  [fsub x
    (fadd (fadd (fadd x0 (fmul x1 (2 ^ K1 % P))) (fmul x2 (2 ^ K2 % P)))
      (fmul x3 (2 ^ K3 % P)))]

end Split4PartsGate

/-- `Split4PartsGenerator::run_once` (src/gates.rs lines 186-207): shift
and mask the canonical integer of `x` at the boundaries `K1, K2, K3`. -/
def Split4PartsGenerator.run_once (K1 K2 K3 x : Nat) : Nat × Nat × Nat × Nat :=
  (x &&& (2 ^ K1 - 1),
   (x >>> K1) &&& (2 ^ (K2 - K1) - 1),
   (x >>> K2) &&& (2 ^ (K3 - K2) - 1),
   (x >>> K3) &&& (2 ^ (32 - K3) - 1))

namespace SplitNibbleGate

/-- `SplitNibbleGate::num_wires` (src/gates.rs line 246): `x` and eight
nibbles. -/
def num_wires : Nat := 9

/-- `SplitNibbleGate::num_constraints` (src/gates.rs line 255). -/
def num_constraints : Nat := 1

/-- `SplitNibbleGate::degree` (src/gates.rs line 252). -/
def degree : Nat := 1

/-- `SplitNibbleGate::eval_unfiltered` (src/gates.rs lines 259-291): the
single constraint value `x - Σ_{i<8} x_{4i}·2^{4i}` over the field. -/
def eval_unfiltered (x x0 x4 x8 x12 x16 x20 x24 x28 : Nat) : List Nat :=
  [fsub x
    (fadd
      (fadd
        (fadd
          (fadd
            (fadd (fadd (fadd x0 (fmul x4 (2 ^ 4 % P))) (fmul x8 (2 ^ 8 % P)))
              (fmul x12 (2 ^ 12 % P)))
            (fmul x16 (2 ^ 16 % P)))
          (fmul x20 (2 ^ 20 % P)))
        (fmul x24 (2 ^ 24 % P)))
      (fmul x28 (2 ^ 28 % P)))]

end SplitNibbleGate

/-- `SplitNibbleGenerator::run_once` (src/gates.rs lines 392-421): the
eight nibble outputs `(x >> 4i) & 15` in order. -/
def SplitNibbleGenerator.run_once (x : Nat) : List Nat :=
  [x &&& (2 ^ 4 - 1),
   (x >>> 4) &&& (2 ^ 4 - 1),
   (x >>> 8) &&& (2 ^ 4 - 1),
   (x >>> 12) &&& (2 ^ 4 - 1),
   (x >>> 16) &&& (2 ^ 4 - 1),
   (x >>> 20) &&& (2 ^ 4 - 1),
   (x >>> 24) &&& (2 ^ 4 - 1),
   (x >>> 28) &&& (2 ^ 4 - 1)]

/-- A `Split4PartsGate` instance: its fixed parameters are the const
generics `K1, K2, K3` of the Rust type. -/
structure Split4PartsGateModel where
  K1 : Nat
  K2 : Nat
  K3 : Nat
deriving DecidableEq

/-- `Split4PartsGate::serialize` (src/gates.rs lines 142-148): nothing is
written to the buffer; the parameters live in the type. -/
def Split4PartsGateModel.serialize (_g : Split4PartsGateModel) (dst : List Nat) :
    List Nat :=
  dst

/-- `Split4PartsGate::deserialize` (src/gates.rs lines 150-154): nothing
is read; the gate is rebuilt from the const generics `K1, K2, K3` the
deserializer is invoked at. -/
def Split4PartsGateModel.deserialize (K1 K2 K3 : Nat) (src : List Nat) :
    Split4PartsGateModel × List Nat :=
  (⟨K1, K2, K3⟩, src)

/-- A `Split4PartsGenerator` instance: its serialized state is its row. -/
structure Split4PartsGeneratorModel where
  row : Nat
deriving DecidableEq

/-- `Split4PartsGenerator::serialize` (src/gates.rs lines 209-211):
`dst.write_usize(self.row)`. -/
def Split4PartsGeneratorModel.serialize (g : Split4PartsGeneratorModel)
    (dst : List Nat) : List Nat :=
  dst ++ [g.row]

/-- `Split4PartsGenerator::deserialize` (src/gates.rs lines 213-219):
`src.read_usize()`, failing on an empty buffer. -/
def Split4PartsGeneratorModel.deserialize (src : List Nat) :
    Option (Split4PartsGeneratorModel × List Nat) :=
  match src with
  | [] => none
  | r :: rest => some (⟨r⟩, rest)

/-- Reference 3-input majority function, `(a∧b) ⊕ (a∧c) ⊕ (b∧c)` bitwise. -/
def majFun (a b c : Nat) : Nat := (a &&& b) ^^^ ((a &&& c) ^^^ (b &&& c))

/-- Reference choose function, `if a then b else c` bitwise, written
without a complement as `c ⊕ (a ∧ (b ⊕ c))`. -/
def chFun (a b c : Nat) : Nat := c ^^^ (a &&& (b ^^^ c))

theorem P_eq : P = 18446744069414584321 := by norm_num [P]

theorem evenSpread_le_ones (n : Nat) : ∀ x, evenSpread n x ≤ ones n := by
  induction n with
  | zero => intro x; simp [evenSpread, ones]
  | succ n ih =>
    intro x
    have h := ih (x / 4)
    simp only [evenSpread, ones]
    omega

theorem ones_lt_four_pow (n : Nat) : ones n < 4 ^ n := by
  induction n with
  | zero => simp [ones]
  | succ n ih =>
    rw [pow_succ]
    simp only [ones]
    omega

theorem spread_le_ones (n : Nat) : ∀ b, spread n b ≤ ones n := by
  induction n with
  | zero => intro b; simp [spread, ones]
  | succ n ih =>
    intro b
    have h := ih (b / 2)
    simp only [spread, ones]
    omega

theorem xor_div_pow (x y k : Nat) : (x ^^^ y) / 2 ^ k = x / 2 ^ k ^^^ y / 2 ^ k := by
  simp only [← Nat.shiftRight_eq_div_pow]
  exact Nat.eq_of_testBit_eq fun i => by simp

theorem and_div_pow (x y k : Nat) : (x &&& y) / 2 ^ k = x / 2 ^ k &&& y / 2 ^ k := by
  simp only [← Nat.shiftRight_eq_div_pow]
  exact Nat.eq_of_testBit_eq fun i => by simp

theorem xor_div_two (x y : Nat) : (x ^^^ y) / 2 = x / 2 ^^^ y / 2 := by
  have h := xor_div_pow x y 1
  simpa using h

theorem and_div_two (x y : Nat) : (x &&& y) / 2 = x / 2 &&& y / 2 := by
  have h := and_div_pow x y 1
  simpa using h

theorem xor_mod_pow (x y k : Nat) : (x ^^^ y) % 2 ^ k = x % 2 ^ k ^^^ y % 2 ^ k := by
  refine Nat.eq_of_testBit_eq fun i => ?_
  simp only [Nat.testBit_mod_two_pow, Nat.testBit_xor]
  by_cases h : i < k <;> simp [h]

theorem and_mod_pow (x y k : Nat) : (x &&& y) % 2 ^ k = x % 2 ^ k &&& y % 2 ^ k := by
  refine Nat.eq_of_testBit_eq fun i => ?_
  simp only [Nat.testBit_mod_two_pow, Nat.testBit_and]
  by_cases h : i < k <;> simp [h]

theorem mod_two_xor (x y : Nat) : (x ^^^ y) % 2 = (x % 2 + y % 2) % 2 := by
  have h := xor_mod_pow x y 1
  rw [pow_one] at h
  rw [h]
  rcases Nat.mod_two_eq_zero_or_one x with hx | hx <;>
    rcases Nat.mod_two_eq_zero_or_one y with hy | hy <;> rw [hx, hy] <;> decide

theorem mod_two_and (x y : Nat) : (x &&& y) % 2 = (x % 2 + y % 2) / 2 := by
  have h := and_mod_pow x y 1
  rw [pow_one] at h
  rw [h]
  rcases Nat.mod_two_eq_zero_or_one x with hx | hx <;>
    rcases Nat.mod_two_eq_zero_or_one y with hy | hy <;> rw [hx, hy] <;> decide

theorem majFun_mod_two (a b c : Nat) :
    majFun a b c % 2 = (a % 2 + b % 2 + c % 2) / 2 := by
  unfold majFun
  rw [mod_two_xor, mod_two_xor, mod_two_and, mod_two_and, mod_two_and]
  rcases Nat.mod_two_eq_zero_or_one a with h1 | h1 <;>
    rcases Nat.mod_two_eq_zero_or_one b with h2 | h2 <;>
      rcases Nat.mod_two_eq_zero_or_one c with h3 | h3 <;>
        rw [h1, h2, h3]

theorem majFun_div_two (a b c : Nat) :
    majFun a b c / 2 = majFun (a / 2) (b / 2) (c / 2) := by
  unfold majFun
  rw [xor_div_two, xor_div_two, and_div_two, and_div_two, and_div_two]

theorem chFun_div_two (a b c : Nat) :
    chFun a b c / 2 = chFun (a / 2) (b / 2) (c / 2) := by
  unfold chFun
  rw [xor_div_two, and_div_two, xor_div_two]

theorem evenSpread_add4 (n t K : Nat) (h : t < 4) :
    evenSpread (n + 1) (t + 4 * K) = t % 2 + 4 * evenSpread n K := by
  show (t + 4 * K) % 2 + 4 * evenSpread n ((t + 4 * K) / 4) = _
  have h1 : (t + 4 * K) % 2 = t % 2 := by omega
  have h2 : (t + 4 * K) / 4 = K := by omega
  rw [h1, h2]

theorem evenSpread_add4_div2 (n t K : Nat) (h : t < 4) :
    evenSpread (n + 1) ((t + 4 * K) / 2) = t / 2 + 4 * evenSpread n (K / 2) := by
  show (t + 4 * K) / 2 % 2 + 4 * evenSpread n ((t + 4 * K) / 2 / 4) = _
  have h1 : (t + 4 * K) / 2 % 2 = t / 2 := by omega
  have h2 : (t + 4 * K) / 2 / 4 = K / 2 := by omega
  rw [h1, h2]

theorem spread_recombine (n : Nat) : ∀ y, 2 * evenSpread n (y / 2) + evenSpread n y = y % 4 ^ n := by
  induction n with
  | zero => intro y; simp [evenSpread, Nat.mod_one]
  | succ n ih =>
    intro y
    have h1 : evenSpread (n + 1) y = y % 2 + 4 * evenSpread n (y / 4) := rfl
    have h2 : evenSpread (n + 1) (y / 2) = y / 2 % 2 + 4 * evenSpread n (y / 2 / 4) := rfl
    have h3 : y / 2 / 4 = y / 4 / 2 := by omega
    have h4 : y % 4 ^ (n + 1) = y % 4 + 4 * (y / 4 % 4 ^ n) := by
      rw [pow_succ, Nat.mul_comm, Nat.mod_mul]
    have h5 := ih (y / 4)
    rw [h1, h2, h3, h4]
    omega

theorem parity3 (n : Nat) : ∀ a b c,
    evenSpread n (evenSpread n a + evenSpread n b + evenSpread n c)
      = evenSpread n (a ^^^ b ^^^ c) := by
  induction n with
  | zero => intro a b c; rfl
  | succ n ih =>
    intro a b c
    have hS : evenSpread (n + 1) a + evenSpread (n + 1) b + evenSpread (n + 1) c
        = (a % 2 + b % 2 + c % 2)
          + 4 * (evenSpread n (a / 4) + evenSpread n (b / 4) + evenSpread n (c / 4)) := by
      simp only [evenSpread]; ring
    rw [hS, evenSpread_add4 n _ _ (by omega), ih (a / 4) (b / 4) (c / 4)]
    have h24 : ∀ z : Nat, z / 2 / 2 = z / 4 := fun z => by omega
    have hd : (a ^^^ b ^^^ c) / 4 = a / 4 ^^^ b / 4 ^^^ c / 4 := by
      rw [← h24 (a ^^^ b ^^^ c), xor_div_two, xor_div_two, xor_div_two, xor_div_two,
        h24 a, h24 b, h24 c]
    have hm : (a ^^^ b ^^^ c) % 2 = (a % 2 + b % 2 + c % 2) % 2 := by
      rw [mod_two_xor, mod_two_xor]; omega
    have hR : evenSpread (n + 1) (a ^^^ b ^^^ c)
        = (a ^^^ b ^^^ c) % 2 + 4 * evenSpread n ((a ^^^ b ^^^ c) / 4) := rfl
    rw [hR, hd, hm]

theorem carry3 (n : Nat) : ∀ a b c,
    evenSpread n ((evenSpread n a + evenSpread n b + evenSpread n c) / 2)
      = evenSpread n (majFun a b c) := by
  induction n with
  | zero => intro a b c; rfl
  | succ n ih =>
    intro a b c
    have hS : evenSpread (n + 1) a + evenSpread (n + 1) b + evenSpread (n + 1) c
        = (a % 2 + b % 2 + c % 2)
          + 4 * (evenSpread n (a / 4) + evenSpread n (b / 4) + evenSpread n (c / 4)) := by
      simp only [evenSpread]; ring
    rw [hS, evenSpread_add4_div2 n _ _ (by omega)]
    have h24 : ∀ z : Nat, z / 2 / 2 = z / 4 := fun z => by omega
    have hsum : (evenSpread n (a / 4) + evenSpread n (b / 4) + evenSpread n (c / 4)) / 2
        = (evenSpread n (a / 4) + evenSpread n (b / 4) + evenSpread n (c / 4)) / 2 := rfl
    rw [ih (a / 4) (b / 4) (c / 4)]
    have hd : majFun a b c / 4 = majFun (a / 4) (b / 4) (c / 4) := by
      rw [← h24 (majFun a b c), majFun_div_two, majFun_div_two, h24 a, h24 b, h24 c]
    have hm := majFun_mod_two a b c
    have hR : evenSpread (n + 1) (majFun a b c)
        = majFun a b c % 2 + 4 * evenSpread n (majFun a b c / 4) := rfl
    rw [hR, hd, hm]

theorem parity2 (n : Nat) : ∀ a b,
    evenSpread n (evenSpread n a + evenSpread n b) = evenSpread n (a ^^^ b) := by
  induction n with
  | zero => intro a b; rfl
  | succ n ih =>
    intro a b
    have hS : evenSpread (n + 1) a + evenSpread (n + 1) b
        = (a % 2 + b % 2) + 4 * (evenSpread n (a / 4) + evenSpread n (b / 4)) := by
      simp only [evenSpread]; ring
    rw [hS, evenSpread_add4 n _ _ (by omega), ih (a / 4) (b / 4)]
    have h24 : ∀ z : Nat, z / 2 / 2 = z / 4 := fun z => by omega
    have hd : (a ^^^ b) / 4 = a / 4 ^^^ b / 4 := by
      rw [← h24 (a ^^^ b), xor_div_two, xor_div_two, h24 a, h24 b]
    have hm : (a ^^^ b) % 2 = (a % 2 + b % 2) % 2 := mod_two_xor a b
    have hR : evenSpread (n + 1) (a ^^^ b)
        = (a ^^^ b) % 2 + 4 * evenSpread n ((a ^^^ b) / 4) := rfl
    rw [hR, hd, hm]

theorem carry2 (n : Nat) : ∀ a b,
    evenSpread n ((evenSpread n a + evenSpread n b) / 2) = evenSpread n (a &&& b) := by
  induction n with
  | zero => intro a b; rfl
  | succ n ih =>
    intro a b
    have hS : evenSpread (n + 1) a + evenSpread (n + 1) b
        = (a % 2 + b % 2) + 4 * (evenSpread n (a / 4) + evenSpread n (b / 4)) := by
      simp only [evenSpread]; ring
    rw [hS, evenSpread_add4_div2 n _ _ (by omega), ih (a / 4) (b / 4)]
    have h24 : ∀ z : Nat, z / 2 / 2 = z / 4 := fun z => by omega
    have hd : (a &&& b) / 4 = a / 4 &&& b / 4 := by
      rw [← h24 (a &&& b), and_div_two, and_div_two, h24 a, h24 b]
    have hm : (a &&& b) % 2 = (a % 2 + b % 2) / 2 := mod_two_and a b
    have hR : evenSpread (n + 1) (a &&& b)
        = (a &&& b) % 2 + 4 * evenSpread n ((a &&& b) / 4) := rfl
    rw [hR, hd, hm]

theorem spread_compl (n : Nat) : ∀ a,
    ones n - evenSpread n a = evenSpread n ((2 ^ (2 * n) - 1) ^^^ a) := by
  induction n with
  | zero => intro a; rfl
  | succ n ih =>
    intro a
    have hp : 0 < (4 : Nat) ^ n := pow_pos (by norm_num) n
    have hes := evenSpread_le_ones n (a / 4)
    have hL : ones (n + 1) - evenSpread (n + 1) a
        = (1 - a % 2) + 4 * (ones n - evenSpread n (a / 4)) := by
      simp only [ones, evenSpread]; omega
    rw [hL, ih (a / 4)]
    have hM : (2 : Nat) ^ (2 * (n + 1)) = 4 * 4 ^ n := by
      rw [Nat.pow_mul]; rw [pow_succ]; norm_num; ring
    have hMn : (2 : Nat) ^ (2 * n) = 4 ^ n := by rw [Nat.pow_mul]
    have hm2 : ((2 ^ (2 * (n + 1)) - 1) ^^^ a) % 2 = 1 - a % 2 := by
      rw [mod_two_xor]
      have : (2 ^ (2 * (n + 1)) - 1) % 2 = 1 := by rw [hM]; omega
      rw [this]; omega
    have h24 : ∀ z : Nat, z / 2 / 2 = z / 4 := fun z => by omega
    have hd4 : ((2 ^ (2 * (n + 1)) - 1) ^^^ a) / 4 = (2 ^ (2 * n) - 1) ^^^ a / 4 := by
      rw [← h24 ((2 ^ (2 * (n + 1)) - 1) ^^^ a), xor_div_two, xor_div_two, h24 _, h24 a]
      have : (2 ^ (2 * (n + 1)) - 1) / 4 = 2 ^ (2 * n) - 1 := by
        rw [hM, hMn]; omega
      rw [this]
    have hR : evenSpread (n + 1) ((2 ^ (2 * (n + 1)) - 1) ^^^ a)
        = ((2 ^ (2 * (n + 1)) - 1) ^^^ a) % 2
          + 4 * evenSpread n (((2 ^ (2 * (n + 1)) - 1) ^^^ a) / 4) := rfl
    rw [hR, hd4, hm2]

theorem and_xor_compl_chFun (n a b c : Nat) (ha : a < 2 ^ n) (hb : b < 2 ^ n)
    (hc : c < 2 ^ n) :
    (a &&& b) ^^^ (((2 ^ n - 1) ^^^ a) &&& c) = chFun a b c := by
  refine Nat.eq_of_testBit_eq fun j => ?_
  unfold chFun
  rcases Nat.lt_or_ge j n with h | h
  · simp only [Nat.testBit_xor, Nat.testBit_and, Nat.testBit_two_pow_sub_one, h, decide_True,
      Bool.true_xor]
    cases a.testBit j <;> cases b.testBit j <;> cases c.testBit j <;> rfl
  · have hj : ∀ z : Nat, z < 2 ^ n → z.testBit j = false := fun z hz =>
      Nat.testBit_lt_two_pow (lt_of_lt_of_le hz (Nat.pow_le_pow_right (by norm_num) h))
    have hn : ¬ j < n := Nat.not_lt.mpr h
    simp [Nat.testBit_xor, Nat.testBit_and, Nat.testBit_two_pow_sub_one, hn,
      hj a ha, hj b hb, hj c hc]

theorem mul_mod_modP (a b : Nat) : a * (b % P) % P = a * b % P := by
  rw [Nat.mul_comm, Nat.mod_mul_mod, Nat.mul_comm]

theorem fsub_eq_zero_iff (x z : Nat) : fsub x z = 0 ↔ x % P = z % P := by
  unfold fsub
  rw [P_eq]
  omega

theorem fsub_eq_of_le (x z : Nat) (hz : z ≤ x) (hx : x < P) : fsub x z = x - z := by
  unfold fsub
  rw [P_eq] at hx ⊢
  omega

theorem ones_eight : ones 8 = 21845 := rfl

theorem evenSpread_eight_le (x : Nat) : evenSpread 8 x ≤ 21845 := by
  have h := evenSpread_le_ones 8 x
  rw [ones_eight] at h
  exact h

theorem P_large : 2 ^ 32 < P := by rw [P_eq]; norm_num

theorem sum3_mod_P (u v w : Nat) (hu : u ≤ 21845) (hv : v ≤ 21845) (hw : w ≤ 21845) :
    (u + v + w) % P = u + v + w := by
  apply Nat.mod_eq_of_lt
  rw [P_eq]
  omega

theorem sum2_mod_P (u v : Nat) (hu : u ≤ 43690) (hv : v ≤ 43690) :
    (u + v) % P = u + v := by
  apply Nat.mod_eq_of_lt
  rw [P_eq]
  omega

theorem four_pow_eight : (4 : Nat) ^ 8 = 2 ^ 16 := by norm_num

theorem xor3_u16_eq (a b c : Nat) (ha : a < 2 ^ 16) (hb : b < 2 ^ 16)
    (hc : c < 2 ^ 16) : xor3_u16_by_spread a b c = a ^^^ b ^^^ c := by
  simp only [xor3_u16_by_spread, splitU8SpreadEven, splitU8SpreadOdd]
  rw [sum3_mod_P _ _ _ (evenSpread_eight_le a) (evenSpread_eight_le b) (evenSpread_eight_le c),
    sum3_mod_P _ _ _ (evenSpread_eight_le (a / 2)) (evenSpread_eight_le (b / 2))
      (evenSpread_eight_le (c / 2)),
    parity3, parity3]
  have hX : a / 2 ^^^ b / 2 ^^^ c / 2 = (a ^^^ b ^^^ c) / 2 := by
    rw [xor_div_two, xor_div_two]
  rw [hX,
    sum3_mod_P _ _ _ (evenSpread_eight_le _) (evenSpread_eight_le _) (evenSpread_eight_le _)]
  have hrec := spread_recombine 8 (a ^^^ b ^^^ c)
  have hlt : a ^^^ b ^^^ c < 2 ^ 16 :=
    Nat.xor_lt_two_pow (Nat.xor_lt_two_pow ha hb) hc
  rw [four_pow_eight] at hrec
  rw [Nat.mod_eq_of_lt hlt] at hrec
  omega

theorem maj_u16_eq (a b c : Nat) (ha : a < 2 ^ 16) (hb : b < 2 ^ 16)
    (hc : c < 2 ^ 16) : maj_u16_by_spread a b c = majFun a b c := by
  simp only [maj_u16_by_spread, splitU8SpreadEven, splitU8SpreadOdd]
  rw [sum3_mod_P _ _ _ (evenSpread_eight_le a) (evenSpread_eight_le b) (evenSpread_eight_le c),
    sum3_mod_P _ _ _ (evenSpread_eight_le (a / 2)) (evenSpread_eight_le (b / 2))
      (evenSpread_eight_le (c / 2)),
    carry3, carry3]
  have hX : majFun (a / 2) (b / 2) (c / 2) = majFun a b c / 2 :=
    (majFun_div_two a b c).symm
  rw [hX,
    sum3_mod_P _ _ _ (evenSpread_eight_le _) (evenSpread_eight_le _) (evenSpread_eight_le _)]
  have hrec := spread_recombine 8 (majFun a b c)
  have hlt : majFun a b c < 2 ^ 16 := by
    unfold majFun
    exact Nat.xor_lt_two_pow (lt_of_le_of_lt Nat.and_le_left ha)
      (Nat.xor_lt_two_pow (lt_of_le_of_lt Nat.and_le_left ha)
        (lt_of_le_of_lt Nat.and_le_left hb))
  rw [four_pow_eight] at hrec
  rw [Nat.mod_eq_of_lt hlt] at hrec
  omega

theorem ch_u8_spread_eq (a b c : Nat) (ha : a < 2 ^ 16) (hb : b < 2 ^ 16)
    (hc : c < 2 ^ 16) :
    ch_u8_spread (evenSpread 8 a) (evenSpread 8 b) (evenSpread 8 c)
      = evenSpread 8 (chFun a b c) := by
  simp only [ch_u8_spread, splitU8SpreadEven, splitU8SpreadOdd, fadd]
  have h5 : (21845 : Nat) % P = 21845 := Nat.mod_eq_of_lt (by rw [P_eq]; norm_num)
  rw [h5]
  have hsub : fsub 21845 (evenSpread 8 a) = 21845 - evenSpread 8 a :=
    fsub_eq_of_le _ _ (evenSpread_eight_le a) (by rw [P_eq]; norm_num)
  rw [hsub]
  have h1 : (evenSpread 8 a + evenSpread 8 b) % P = evenSpread 8 a + evenSpread 8 b :=
    Nat.mod_eq_of_lt (by
      have hA := evenSpread_eight_le a
      have hB := evenSpread_eight_le b
      rw [P_eq]; omega)
  have h2 : (21845 - evenSpread 8 a + evenSpread 8 c) % P
      = 21845 - evenSpread 8 a + evenSpread 8 c :=
    Nat.mod_eq_of_lt (by
      have hC := evenSpread_eight_le c
      rw [P_eq]; omega)
  rw [h1, h2, carry2]
  have hcompl : (21845 : Nat) - evenSpread 8 a
      = evenSpread 8 ((2 ^ 16 - 1) ^^^ a) := by
    have h := spread_compl 8 a
    rw [ones_eight] at h
    norm_num at h
    exact h
  rw [hcompl, carry2]
  have h3 : (evenSpread 8 (a &&& b) + evenSpread 8 ((2 ^ 16 - 1 ^^^ a) &&& c)) % P
      = evenSpread 8 (a &&& b) + evenSpread 8 ((2 ^ 16 - 1 ^^^ a) &&& c) :=
    Nat.mod_eq_of_lt (by
      have hE := evenSpread_eight_le (a &&& b)
      have hF := evenSpread_eight_le ((2 ^ 16 - 1 ^^^ a) &&& c)
      rw [P_eq]; omega)
  rw [h3, parity2]
  rw [and_xor_compl_chFun 16 a b c ha hb hc]

theorem ch_u16_eq (a b c : Nat) (ha : a < 2 ^ 16) (hb : b < 2 ^ 16)
    (hc : c < 2 ^ 16) : ch_u16_by_spread a b c = chFun a b c := by
  simp only [ch_u16_by_spread, splitU8SpreadEven, splitU8SpreadOdd]
  rw [ch_u8_spread_eq a b c ha hb hc,
    ch_u8_spread_eq (a / 2) (b / 2) (c / 2) (by omega) (by omega) (by omega)]
  have hX : chFun (a / 2) (b / 2) (c / 2) = chFun a b c / 2 :=
    (chFun_div_two a b c).symm
  rw [hX,
    sum3_mod_P _ _ _ (evenSpread_eight_le _) (evenSpread_eight_le _) (evenSpread_eight_le _)]
  have hrec := spread_recombine 8 (chFun a b c)
  have hlt : chFun a b c < 2 ^ 16 := by
    unfold chFun
    exact Nat.xor_lt_two_pow hc (lt_of_le_of_lt Nat.and_le_left ha)
  rw [four_pow_eight] at hrec
  rw [Nat.mod_eq_of_lt hlt] at hrec
  omega

theorem pow16_mod_P : (2 : Nat) ^ 16 % P = 2 ^ 16 := Nat.mod_eq_of_lt (by rw [P_eq]; norm_num)

theorem xor3_u32_eq (a b c : Nat) (ha : a < 2 ^ 32) (hb : b < 2 ^ 32)
    (hc : c < 2 ^ 32) : xor3_u32_by_spread a b c = a ^^^ b ^^^ c := by
  simp only [xor3_u32_by_spread, splitU16lo, splitU16hi, pow16_mod_P]
  rw [xor3_u16_eq _ _ _ (by omega) (by omega) (by omega),
    xor3_u16_eq _ _ _ (by omega) (by omega) (by omega)]
  have hXlo : a % 2 ^ 16 ^^^ b % 2 ^ 16 ^^^ c % 2 ^ 16 = (a ^^^ b ^^^ c) % 2 ^ 16 := by
    rw [xor_mod_pow, xor_mod_pow]
  have hXhi : a / 2 ^ 16 ^^^ b / 2 ^ 16 ^^^ c / 2 ^ 16 = (a ^^^ b ^^^ c) / 2 ^ 16 := by
    rw [xor_div_pow, xor_div_pow]
  rw [hXlo, hXhi]
  have hX : a ^^^ b ^^^ c < 2 ^ 32 :=
    Nat.xor_lt_two_pow (Nat.xor_lt_two_pow ha hb) hc
  rw [P_eq]
  omega

theorem majFun_mod_pow (a b c k : Nat) :
    majFun (a % 2 ^ k) (b % 2 ^ k) (c % 2 ^ k) = majFun a b c % 2 ^ k := by
  unfold majFun
  rw [xor_mod_pow, xor_mod_pow, and_mod_pow, and_mod_pow, and_mod_pow]

theorem majFun_div_pow (a b c k : Nat) :
    majFun (a / 2 ^ k) (b / 2 ^ k) (c / 2 ^ k) = majFun a b c / 2 ^ k := by
  unfold majFun
  rw [xor_div_pow, xor_div_pow, and_div_pow, and_div_pow, and_div_pow]

theorem maj_u32_eq (a b c : Nat) (ha : a < 2 ^ 32) (hb : b < 2 ^ 32)
    (hc : c < 2 ^ 32) : maj_u32_by_spread a b c = majFun a b c := by
  simp only [maj_u32_by_spread, splitU16lo, splitU16hi, pow16_mod_P]
  rw [maj_u16_eq _ _ _ (by omega) (by omega) (by omega),
    maj_u16_eq _ _ _ (by omega) (by omega) (by omega),
    majFun_mod_pow, majFun_div_pow]
  have hX : majFun a b c < 2 ^ 32 := by
    unfold majFun
    exact Nat.xor_lt_two_pow (lt_of_le_of_lt Nat.and_le_left ha)
      (Nat.xor_lt_two_pow (lt_of_le_of_lt Nat.and_le_left ha)
        (lt_of_le_of_lt Nat.and_le_left hb))
  rw [P_eq]
  omega

theorem chFun_mod_pow (a b c k : Nat) :
    chFun (a % 2 ^ k) (b % 2 ^ k) (c % 2 ^ k) = chFun a b c % 2 ^ k := by
  unfold chFun
  rw [xor_mod_pow, and_mod_pow, xor_mod_pow]

theorem chFun_div_pow (a b c k : Nat) :
    chFun (a / 2 ^ k) (b / 2 ^ k) (c / 2 ^ k) = chFun a b c / 2 ^ k := by
  unfold chFun
  rw [xor_div_pow, and_div_pow, xor_div_pow]

theorem ch_u32_eq (a b c : Nat) (ha : a < 2 ^ 32) (hb : b < 2 ^ 32)
    (hc : c < 2 ^ 32) : ch_u32_by_spread a b c = chFun a b c := by
  simp only [ch_u32_by_spread, splitU16lo, splitU16hi, pow16_mod_P]
  rw [ch_u16_eq _ _ _ (by omega) (by omega) (by omega),
    ch_u16_eq _ _ _ (by omega) (by omega) (by omega),
    chFun_mod_pow, chFun_div_pow]
  have hX : chFun a b c < 2 ^ 32 := by
    unfold chFun
    exact Nat.xor_lt_two_pow hc (lt_of_le_of_lt Nat.and_le_left ha)
  rw [P_eq]
  omega

/-- Claim C1: for every three 32-bit operands `a, b, c`, the wire returned
by `xor3_u32_by_spread` holds the bitwise 3-input XOR of `a, b, c`: bit `i`
of the result is 1 exactly when an odd number of the three operands have
bit `i` set; in particular
`XOR3(0xFFFFFFFF, 0x00000000, 0x0F0F0F0F) = 0xF0F0F0F0`. -/
theorem xor3_u32_by_spread_correct :
    (∀ a b c : Nat, a < 2 ^ 32 → b < 2 ^ 32 → c < 2 ^ 32 →
      xor3_u32_by_spread a b c = a ^^^ b ^^^ c ∧
      ∀ i, (xor3_u32_by_spread a b c).testBit i
        = decide
            (((a.testBit i).toNat + (b.testBit i).toNat + (c.testBit i).toNat) % 2 = 1)) ∧
    xor3_u32_by_spread 0xFFFFFFFF 0x00000000 0x0F0F0F0F = 0xF0F0F0F0 := by
  constructor
  · intro a b c ha hb hc
    have hmain := xor3_u32_eq a b c ha hb hc
    refine ⟨hmain, fun i => ?_⟩
    rw [hmain, Nat.testBit_xor, Nat.testBit_xor]
    cases a.testBit i <;> cases b.testBit i <;> cases c.testBit i <;> rfl
  · decide

/-- Witness for C1: the theorem applied at the spec's own concrete
example. -/
theorem xor3_u32_by_spread_correct_witness :
    (0xFFFFFFFF : Nat) < 2 ^ 32 ∧
    xor3_u32_by_spread 0xFFFFFFFF 0x00000000 0x0F0F0F0F
      = 0xFFFFFFFF ^^^ 0x00000000 ^^^ 0x0F0F0F0F :=
  ⟨by decide,
    (xor3_u32_by_spread_correct.1 0xFFFFFFFF 0x00000000 0x0F0F0F0F (by decide) (by decide)
      (by decide)).1⟩

/-- Claim C2: for every three 32-bit operands `a, b, c`, the wire returned
by `maj_u32_by_spread` holds the bitwise majority of `a, b, c`: bit `i` of
the result is 1 exactly when at least 2 of the 3 operands have bit `i`
set; in particular the low 3 bits of `MAJ3(0b101, 0b011, 0b110)` are
`0b111`. -/
theorem maj_u32_by_spread_correct :
    (∀ a b c : Nat, a < 2 ^ 32 → b < 2 ^ 32 → c < 2 ^ 32 →
      maj_u32_by_spread a b c = majFun a b c ∧
      ∀ i, (maj_u32_by_spread a b c).testBit i
        = decide
            (2 ≤ (a.testBit i).toNat + (b.testBit i).toNat + (c.testBit i).toNat)) ∧
    maj_u32_by_spread 0b101 0b011 0b110 % 2 ^ 3 = 0b111 := by
  constructor
  · intro a b c ha hb hc
    have hmain := maj_u32_eq a b c ha hb hc
    refine ⟨hmain, fun i => ?_⟩
    rw [hmain]
    unfold majFun
    rw [Nat.testBit_xor, Nat.testBit_xor, Nat.testBit_and, Nat.testBit_and, Nat.testBit_and]
    cases a.testBit i <;> cases b.testBit i <;> cases c.testBit i <;> rfl
  · decide

/-- Witness for C2: the theorem applied at the spec's own concrete
example. -/
theorem maj_u32_by_spread_correct_witness :
    (0b101 : Nat) < 2 ^ 32 ∧
    maj_u32_by_spread 0b101 0b011 0b110 = majFun 0b101 0b011 0b110 :=
  ⟨by decide,
    (maj_u32_by_spread_correct.1 0b101 0b011 0b110 (by decide) (by decide) (by decide)).1⟩

/-- Counterexample for C3 as stated: the claim describes the per-half
computation as "folding the two partial sums' parities", but the gadget
folds the two partial sums' odd (carry) streams; the parity-folding
pipeline the claim describes does not compute the choose function, and
differs from the code already at operands `a = 1, b = 1, c = 0`, where
choose requires result 1. -/
theorem ch_u32_parityFold_differs :
    ch_u32_by_spread_parityFold 1 1 0 ≠ ch_u32_by_spread 1 1 0 ∧
    ch_u32_by_spread 1 1 0 = 1 ∧
    ch_u32_by_spread_parityFold 1 1 0 = 0xFFFFFFFE := by
  refine ⟨by decide, by decide, by decide⟩

/-- Claim C3 (amended): for every three 32-bit operands `a, b, c`, the
wire returned by `ch_u32_by_spread` holds the per-bit choose function:
bit `i` of the result equals bit `i` of `b` when bit `i` of `a` is 1, and
bit `i` of `c` otherwise — computed per half by forming `a+b` and
`(spread-complement of a)+c`, folding the two partial sums' carries (their
odd streams) and re-splitting the folded sum's parity; in particular
`CH3(0xFFFFFFFF, 0xAAAAAAAA, 0x55555555) = 0xAAAAAAAA`. -/
theorem ch_u32_by_spread_correct :
    (∀ a b c : Nat, a < 2 ^ 32 → b < 2 ^ 32 → c < 2 ^ 32 →
      ch_u32_by_spread a b c = chFun a b c ∧
      ∀ i, (ch_u32_by_spread a b c).testBit i
        = cond (a.testBit i) (b.testBit i) (c.testBit i)) ∧
    ch_u32_by_spread 0xFFFFFFFF 0xAAAAAAAA 0x55555555 = 0xAAAAAAAA := by
  constructor
  · intro a b c ha hb hc
    have hmain := ch_u32_eq a b c ha hb hc
    refine ⟨hmain, fun i => ?_⟩
    rw [hmain]
    unfold chFun
    rw [Nat.testBit_xor, Nat.testBit_and, Nat.testBit_xor]
    cases a.testBit i <;> cases b.testBit i <;> cases c.testBit i <;> rfl
  · decide

/-- Witness for C3 (amended): the theorem applied at the spec's own
concrete example. -/
theorem ch_u32_by_spread_correct_witness :
    (0xFFFFFFFF : Nat) < 2 ^ 32 ∧
    ch_u32_by_spread 0xFFFFFFFF 0xAAAAAAAA 0x55555555
      = chFun 0xFFFFFFFF 0xAAAAAAAA 0x55555555 :=
  ⟨by decide,
    (ch_u32_by_spread_correct.1 0xFFFFFFFF 0xAAAAAAAA 0x55555555 (by decide) (by decide)
      (by decide)).1⟩

theorem mod_chain (x i j : Nat) (h : i ≤ j) :
    x % 2 ^ i + x / 2 ^ i % 2 ^ (j - i) * 2 ^ i = x % 2 ^ j := by
  have e : (2 : Nat) ^ j = 2 ^ i * 2 ^ (j - i) := by
    rw [← pow_add]
    congr 1
    omega
  rw [e, Nat.mod_mul]
  ring

theorem digit_lt (u v U V : Nat) (hu : u < U) (hv : v < V) : u + v * U < V * U := by
  have h2 : (v + 1) * U ≤ V * U := Nat.mul_le_mul_right U (Nat.succ_le_of_lt hv)
  calc u + v * U < U + v * U := by omega
    _ = (v + 1) * U := by ring
    _ ≤ V * U := h2

theorem run_once_eq (K1 K2 K3 x : Nat) :
    Split4PartsGenerator.run_once K1 K2 K3 x
      = (x % 2 ^ K1, x / 2 ^ K1 % 2 ^ (K2 - K1), x / 2 ^ K2 % 2 ^ (K3 - K2),
         x / 2 ^ K3 % 2 ^ (32 - K3)) := by
  unfold Split4PartsGenerator.run_once
  rw [Nat.shiftRight_eq_div_pow, Nat.shiftRight_eq_div_pow, Nat.shiftRight_eq_div_pow,
    Nat.and_pow_two_sub_one_eq_mod, Nat.and_pow_two_sub_one_eq_mod,
    Nat.and_pow_two_sub_one_eq_mod, Nat.and_pow_two_sub_one_eq_mod]

theorem split4_eval_eq (K1 K2 K3 x x0 x1 x2 x3 : Nat) :
    Split4PartsGate.eval_unfiltered K1 K2 K3 x x0 x1 x2 x3
      = [fsub x ((x0 + x1 * 2 ^ K1 + x2 * 2 ^ K2 + x3 * 2 ^ K3) % P)] := by
  simp only [Split4PartsGate.eval_unfiltered, fadd, fmul]
  rw [mul_mod_modP, mul_mod_modP, mul_mod_modP]
  simp only [Nat.mod_add_mod, Nat.add_mod_mod]

theorem nibble_eval_eq (x x0 x4 x8 x12 x16 x20 x24 x28 : Nat) :
    SplitNibbleGate.eval_unfiltered x x0 x4 x8 x12 x16 x20 x24 x28
      = [fsub x
          ((x0 + x4 * 2 ^ 4 + x8 * 2 ^ 8 + x12 * 2 ^ 12 + x16 * 2 ^ 16 + x20 * 2 ^ 20
            + x24 * 2 ^ 24 + x28 * 2 ^ 28) % P)] := by
  simp only [SplitNibbleGate.eval_unfiltered, fadd, fmul]
  rw [mul_mod_modP, mul_mod_modP, mul_mod_modP, mul_mod_modP, mul_mod_modP, mul_mod_modP,
    mul_mod_modP]
  simp only [Nat.mod_add_mod, Nat.add_mod_mod]

theorem spread_compl_byte (n : Nat) :
    ∀ b, ones n - spread n b = spread n (b ^^^ (2 ^ n - 1)) := by
  induction n with
  | zero => intro b; rfl
  | succ n ih =>
    intro b
    have hsle := spread_le_ones n (b / 2)
    have hp : 0 < (2 : Nat) ^ n := pow_pos (by norm_num) n
    have hL : ones (n + 1) - spread (n + 1) b
        = (1 - b % 2) + 4 * (ones n - spread n (b / 2)) := by
      simp only [ones, spread]; omega
    rw [hL, ih (b / 2)]
    have hm2 : (b ^^^ (2 ^ (n + 1) - 1)) % 2 = 1 - b % 2 := by
      rw [mod_two_xor]
      have h1 : (2 ^ (n + 1) - 1) % 2 = 1 := by rw [pow_succ]; omega
      rw [h1]; omega
    have hd : (b ^^^ (2 ^ (n + 1) - 1)) / 2 = b / 2 ^^^ (2 ^ n - 1) := by
      rw [xor_div_two]
      have h1 : (2 ^ (n + 1) - 1) / 2 = 2 ^ n - 1 := by rw [pow_succ]; omega
      rw [h1]
    have hR : spread (n + 1) (b ^^^ (2 ^ (n + 1) - 1))
        = (b ^^^ (2 ^ (n + 1) - 1)) % 2 + 4 * spread n ((b ^^^ (2 ^ (n + 1) - 1)) / 2) :=
      rfl
    rw [hR, hm2, hd]

/-- Claim C5: for every input `x < 2^32` and valid `0 < K1 < K2 < K3 < 32`,
the `Split4Parts` witness generator writes
`x0 = x mod 2^K1`, `x1 = (x >> K1) mod 2^(K2-K1)`,
`x2 = (x >> K2) mod 2^(K3-K2)`, `x3 = (x >> K3) mod 2^(32-K3)`, so that
`x0 + x1·2^K1 + x2·2^K2 + x3·2^K3 = x` and each part lies within its
declared bit range. -/
theorem split4_generator_correct (K1 K2 K3 x : Nat) (h0 : 0 < K1) (h1 : K1 < K2)
    (h2 : K2 < K3) (h3 : K3 < 32) (hx : x < 2 ^ 32) :
    Split4PartsGenerator.run_once K1 K2 K3 x
      = (x % 2 ^ K1, x / 2 ^ K1 % 2 ^ (K2 - K1), x / 2 ^ K2 % 2 ^ (K3 - K2),
         x / 2 ^ K3 % 2 ^ (32 - K3)) ∧
    x % 2 ^ K1 + x / 2 ^ K1 % 2 ^ (K2 - K1) * 2 ^ K1 + x / 2 ^ K2 % 2 ^ (K3 - K2) * 2 ^ K2
      + x / 2 ^ K3 % 2 ^ (32 - K3) * 2 ^ K3 = x ∧
    x % 2 ^ K1 < 2 ^ K1 ∧ x / 2 ^ K1 % 2 ^ (K2 - K1) < 2 ^ (K2 - K1) ∧
    x / 2 ^ K2 % 2 ^ (K3 - K2) < 2 ^ (K3 - K2) ∧
    x / 2 ^ K3 % 2 ^ (32 - K3) < 2 ^ (32 - K3) := by
  have p1 : 0 < (2 : Nat) ^ K1 := pow_pos (by norm_num) _
  have p2 : 0 < (2 : Nat) ^ (K2 - K1) := pow_pos (by norm_num) _
  have p3 : 0 < (2 : Nat) ^ (K3 - K2) := pow_pos (by norm_num) _
  have p4 : 0 < (2 : Nat) ^ (32 - K3) := pow_pos (by norm_num) _
  refine ⟨run_once_eq K1 K2 K3 x, ?_, Nat.mod_lt _ p1, Nat.mod_lt _ p2, Nat.mod_lt _ p3,
    Nat.mod_lt _ p4⟩
  have m1 := mod_chain x K1 K2 (Nat.le_of_lt h1)
  have m2 := mod_chain x K2 K3 (Nat.le_of_lt h2)
  have m3 := mod_chain x K3 32 (Nat.le_of_lt h3)
  have hm32 : x % 2 ^ 32 = x := Nat.mod_eq_of_lt hx
  omega

/-- Witness for C5: the theorem applied at `K = (8, 16, 24)` and
`x = 0x12345678`. -/
theorem split4_generator_correct_witness :
    (0 : Nat) < 8 ∧ (0x12345678 : Nat) < 2 ^ 32 ∧
    Split4PartsGenerator.run_once 8 16 24 0x12345678 = (0x78, 0x56, 0x34, 0x12) := by
  refine ⟨by decide, by decide, ?_⟩
  have h := (split4_generator_correct 8 16 24 0x12345678 (by decide) (by decide) (by decide)
    (by decide) (by decide)).1
  rw [h]
  decide

/-- Claim C6: `Split4PartsGate` declares exactly 5 wires, 1 constraint of
degree 1, and for every assignment of field values to its wires the
constraint evaluator returns the single value
`x − (x0 + x1·2^K1 + x2·2^K2 + x3·2^K3)`, which is zero exactly when that
decomposition identity holds over the field. -/
theorem split4_gate_constraint_spec :
    Split4PartsGate.num_wires = 5 ∧ Split4PartsGate.num_constraints = 1 ∧
    Split4PartsGate.degree = 1 ∧
    ∀ K1 K2 K3 x x0 x1 x2 x3 : Nat, x < P →
      Split4PartsGate.eval_unfiltered K1 K2 K3 x x0 x1 x2 x3
        = [fsub x ((x0 + x1 * 2 ^ K1 + x2 * 2 ^ K2 + x3 * 2 ^ K3) % P)] ∧
      (Split4PartsGate.eval_unfiltered K1 K2 K3 x x0 x1 x2 x3 = [0] ↔
        x = (x0 + x1 * 2 ^ K1 + x2 * 2 ^ K2 + x3 * 2 ^ K3) % P) := by
  refine ⟨rfl, rfl, rfl, ?_⟩
  intro K1 K2 K3 x x0 x1 x2 x3 hx
  refine ⟨split4_eval_eq K1 K2 K3 x x0 x1 x2 x3, ?_⟩
  rw [split4_eval_eq K1 K2 K3 x x0 x1 x2 x3]
  have hmm : (x0 + x1 * 2 ^ K1 + x2 * 2 ^ K2 + x3 * 2 ^ K3) % P % P
      = (x0 + x1 * 2 ^ K1 + x2 * 2 ^ K2 + x3 * 2 ^ K3) % P :=
    Nat.mod_mod_of_dvd _ dvd_rfl
  have hx' : x % P = x := Nat.mod_eq_of_lt hx
  constructor
  · intro h
    have h0 : fsub x ((x0 + x1 * 2 ^ K1 + x2 * 2 ^ K2 + x3 * 2 ^ K3) % P) = 0 := by
      simpa using h
    rw [fsub_eq_zero_iff, hmm, hx'] at h0
    exact h0
  · intro h
    have h0 : fsub x ((x0 + x1 * 2 ^ K1 + x2 * 2 ^ K2 + x3 * 2 ^ K3) % P) = 0 := by
      rw [fsub_eq_zero_iff, hmm, hx']
      exact h
    rw [h0]

/-- Witness for C6: the theorem applied at `K = (8, 16, 24)` with the
honest decomposition of `x = 0x12345678`. -/
theorem split4_gate_constraint_spec_witness :
    Split4PartsGate.eval_unfiltered 8 16 24 0x12345678 0x78 0x56 0x34 0x12 = [0] ↔
    (0x12345678 : Nat) = (0x78 + 0x56 * 2 ^ 8 + 0x34 * 2 ^ 16 + 0x12 * 2 ^ 24) % P :=
  (split4_gate_constraint_spec.2.2.2 8 16 24 0x12345678 0x78 0x56 0x34 0x12
    (by rw [P_eq]; norm_num)).2

/-- Claim C4: the `Split4PartsGate` constraint alone admits an assignment
whose `x0` exceeds its declared range (`x = 256` with `x0 = 256`,
`x1 = x2 = x3 = 0` under `K = (8, 16, 24)` satisfies the constraint yet
differs from the shift/mask decomposition); once the four range checks
added by `add_u32_split` hold, the shift/mask decomposition is the unique
satisfying assignment for each `x < 2^32`. -/
theorem split4_range_checks_make_unique :
    (Split4PartsGate.eval_unfiltered 8 16 24 256 256 0 0 0 = [0] ∧ 2 ^ 8 ≤ 256 ∧
      (256, 0, 0, 0) ≠ Split4PartsGenerator.run_once 8 16 24 256) ∧
    ∀ K1 K2 K3 x x0 x1 x2 x3 : Nat, 0 < K1 → K1 < K2 → K2 < K3 → K3 < 32 →
      x < 2 ^ 32 → x0 < 2 ^ K1 → x1 < 2 ^ (K2 - K1) → x2 < 2 ^ (K3 - K2) →
      x3 < 2 ^ (32 - K3) →
      Split4PartsGate.eval_unfiltered K1 K2 K3 x x0 x1 x2 x3 = [0] →
      (x0, x1, x2, x3) = Split4PartsGenerator.run_once K1 K2 K3 x := by
  constructor
  · exact ⟨by decide, by decide, by decide⟩
  intro K1 K2 K3 x x0 x1 x2 x3 hK0 hK1 hK2 hK3 hx b0 b1 b2 b3 heval
  rw [split4_eval_eq] at heval
  have heq : fsub x ((x0 + x1 * 2 ^ K1 + x2 * 2 ^ K2 + x3 * 2 ^ K3) % P) = 0 := by
    simpa using heval
  rw [fsub_eq_zero_iff, Nat.mod_mod_of_dvd _ dvd_rfl] at heq
  have e2 : (2 : Nat) ^ K2 = 2 ^ (K2 - K1) * 2 ^ K1 := by
    rw [← pow_add]; congr 1; omega
  have e3 : (2 : Nat) ^ K3 = 2 ^ (K3 - K2) * 2 ^ (K2 - K1) * 2 ^ K1 := by
    rw [← pow_add, ← pow_add]; congr 1; omega
  have e32 : (2 : Nat) ^ 32 = 2 ^ (32 - K3) * 2 ^ (K3 - K2) * 2 ^ (K2 - K1) * 2 ^ K1 := by
    rw [← pow_add, ← pow_add, ← pow_add]; congr 1; omega
  have hd1 : x2 + x3 * 2 ^ (K3 - K2) < 2 ^ (32 - K3) * 2 ^ (K3 - K2) :=
    digit_lt _ _ _ _ b2 b3
  have hd2 : x1 + (x2 + x3 * 2 ^ (K3 - K2)) * 2 ^ (K2 - K1)
      < 2 ^ (32 - K3) * 2 ^ (K3 - K2) * 2 ^ (K2 - K1) :=
    digit_lt _ _ _ _ b1 hd1
  have hd3 : x0 + (x1 + (x2 + x3 * 2 ^ (K3 - K2)) * 2 ^ (K2 - K1)) * 2 ^ K1
      < 2 ^ (32 - K3) * 2 ^ (K3 - K2) * 2 ^ (K2 - K1) * 2 ^ K1 :=
    digit_lt _ _ _ _ b0 hd2
  have hSeq : x0 + x1 * 2 ^ K1 + x2 * 2 ^ K2 + x3 * 2 ^ K3
      = x0 + (x1 + (x2 + x3 * 2 ^ (K3 - K2)) * 2 ^ (K2 - K1)) * 2 ^ K1 := by
    rw [e2, e3]; ring
  have hSlt : x0 + x1 * 2 ^ K1 + x2 * 2 ^ K2 + x3 * 2 ^ K3 < 2 ^ 32 := by
    rw [hSeq, e32]; exact hd3
  have hP32 := P_large
  have hxeq : x = x0 + x1 * 2 ^ K1 + x2 * 2 ^ K2 + x3 * 2 ^ K3 := by
    rw [Nat.mod_eq_of_lt (lt_trans hx hP32),
      Nat.mod_eq_of_lt (lt_trans hSlt hP32)] at heq
    exact heq
  have p1 : 0 < (2 : Nat) ^ K1 := pow_pos (by norm_num) _
  have p2 : 0 < (2 : Nat) ^ (K2 - K1) := pow_pos (by norm_num) _
  have p3 : 0 < (2 : Nat) ^ (K3 - K2) := pow_pos (by norm_num) _
  have hx' : x = x0 + (x1 + (x2 + x3 * 2 ^ (K3 - K2)) * 2 ^ (K2 - K1)) * 2 ^ K1 := by
    rw [hxeq, hSeq]
  have hx0 : x % 2 ^ K1 = x0 := by
    rw [hx', Nat.add_mul_mod_self_right, Nat.mod_eq_of_lt b0]
  have hq1 : x / 2 ^ K1 = x1 + (x2 + x3 * 2 ^ (K3 - K2)) * 2 ^ (K2 - K1) := by
    rw [hx', Nat.add_mul_div_right _ _ p1, Nat.div_eq_of_lt b0, Nat.zero_add]
  have hx1 : x / 2 ^ K1 % 2 ^ (K2 - K1) = x1 := by
    rw [hq1, Nat.add_mul_mod_self_right, Nat.mod_eq_of_lt b1]
  have hq2 : x / 2 ^ K2 = x2 + x3 * 2 ^ (K3 - K2) := by
    have hdd : x / 2 ^ K2 = x / 2 ^ K1 / 2 ^ (K2 - K1) := by
      rw [Nat.div_div_eq_div_mul, ← pow_add]
      congr 2
      omega
    rw [hdd, hq1, Nat.add_mul_div_right _ _ p2, Nat.div_eq_of_lt b1, Nat.zero_add]
  have hx2 : x / 2 ^ K2 % 2 ^ (K3 - K2) = x2 := by
    rw [hq2, Nat.add_mul_mod_self_right, Nat.mod_eq_of_lt b2]
  have hq3 : x / 2 ^ K3 = x3 := by
    have hdd : x / 2 ^ K3 = x / 2 ^ K2 / 2 ^ (K3 - K2) := by
      rw [Nat.div_div_eq_div_mul, ← pow_add]
      congr 2
      omega
    rw [hdd, hq2, Nat.add_mul_div_right _ _ p3, Nat.div_eq_of_lt b2, Nat.zero_add]
  have hx3 : x / 2 ^ K3 % 2 ^ (32 - K3) = x3 := by
    rw [hq3, Nat.mod_eq_of_lt b3]
  rw [run_once_eq, hx0, hx1, hx2, hx3]

/-- Witness for C4: the uniqueness direction applied at `K = (8, 16, 24)`
with the honest decomposition of `x = 0x12345678`. -/
theorem split4_range_checks_make_unique_witness :
    ((0x78 : Nat), (0x56 : Nat), (0x34 : Nat), (0x12 : Nat))
      = Split4PartsGenerator.run_once 8 16 24 0x12345678 :=
  split4_range_checks_make_unique.2 8 16 24 0x12345678 0x78 0x56 0x34 0x12 (by decide)
    (by decide) (by decide) (by decide) (by decide) (by decide) (by decide) (by decide)
    (by decide) (by decide)

/-- Claim C7: `add_u32_split_u16` emits no range check on its outputs (the
checks are commented out in the source), so the width bound is not
enforced by the single constraint the gadget emits: the assignment
`(x, lo, hi) = (2^16, 2^16, 0)` with `lo ≥ 2^16` satisfies it, even though
the generator would produce `(lo, hi) = (0, 1)`; the indirect bound in the
library's own gadgets comes from lookup-table membership, whose codomain
`spread 8 e` is always below `2^16`. -/
theorem add_u32_split_u16_no_range_check :
    SplitU16Gate.eval_unfiltered 65536 65536 0 = [0] ∧ 2 ^ 16 ≤ 65536 ∧
    SplitU16Gate.eval_unfiltered 65536 0 1 = [0] ∧
    (splitU16lo 65536, splitU16hi 65536) = (0, 1) ∧
    ∀ e : Nat, spread 8 e < 2 ^ 16 := by
  refine ⟨by decide, by decide, by decide, by decide, fun e => ?_⟩
  have h := spread_le_ones 8 e
  rw [ones_eight] at h
  omega

/-- Claim C8: for every `x < 2^32` the `SplitNibble` witness generator
writes the eight nibbles `(x >> 4i) mod 16`, each in `[0, 16)`, they
reconstruct `x`, and the gate's single constraint evaluates to zero on
them. -/
theorem splitNibble_generator_correct (x : Nat) (hx : x < 2 ^ 32) :
    SplitNibbleGenerator.run_once x
      = [x % 2 ^ 4, x / 2 ^ 4 % 2 ^ 4, x / 2 ^ 8 % 2 ^ 4, x / 2 ^ 12 % 2 ^ 4,
         x / 2 ^ 16 % 2 ^ 4, x / 2 ^ 20 % 2 ^ 4, x / 2 ^ 24 % 2 ^ 4, x / 2 ^ 28 % 2 ^ 4] ∧
    (x % 2 ^ 4 < 16 ∧ x / 2 ^ 4 % 2 ^ 4 < 16 ∧ x / 2 ^ 8 % 2 ^ 4 < 16 ∧
      x / 2 ^ 12 % 2 ^ 4 < 16 ∧ x / 2 ^ 16 % 2 ^ 4 < 16 ∧ x / 2 ^ 20 % 2 ^ 4 < 16 ∧
      x / 2 ^ 24 % 2 ^ 4 < 16 ∧ x / 2 ^ 28 % 2 ^ 4 < 16) ∧
    x % 2 ^ 4 + x / 2 ^ 4 % 2 ^ 4 * 2 ^ 4 + x / 2 ^ 8 % 2 ^ 4 * 2 ^ 8
      + x / 2 ^ 12 % 2 ^ 4 * 2 ^ 12 + x / 2 ^ 16 % 2 ^ 4 * 2 ^ 16
      + x / 2 ^ 20 % 2 ^ 4 * 2 ^ 20 + x / 2 ^ 24 % 2 ^ 4 * 2 ^ 24
      + x / 2 ^ 28 % 2 ^ 4 * 2 ^ 28 = x ∧
    SplitNibbleGate.eval_unfiltered x (x % 2 ^ 4) (x / 2 ^ 4 % 2 ^ 4) (x / 2 ^ 8 % 2 ^ 4)
      (x / 2 ^ 12 % 2 ^ 4) (x / 2 ^ 16 % 2 ^ 4) (x / 2 ^ 20 % 2 ^ 4) (x / 2 ^ 24 % 2 ^ 4)
      (x / 2 ^ 28 % 2 ^ 4) = [0] := by
  have hrec : x % 2 ^ 4 + x / 2 ^ 4 % 2 ^ 4 * 2 ^ 4 + x / 2 ^ 8 % 2 ^ 4 * 2 ^ 8
      + x / 2 ^ 12 % 2 ^ 4 * 2 ^ 12 + x / 2 ^ 16 % 2 ^ 4 * 2 ^ 16
      + x / 2 ^ 20 % 2 ^ 4 * 2 ^ 20 + x / 2 ^ 24 % 2 ^ 4 * 2 ^ 24
      + x / 2 ^ 28 % 2 ^ 4 * 2 ^ 28 = x := by omega
  refine ⟨?_, by omega, hrec, ?_⟩
  · unfold SplitNibbleGenerator.run_once
    rw [Nat.shiftRight_eq_div_pow, Nat.shiftRight_eq_div_pow, Nat.shiftRight_eq_div_pow,
      Nat.shiftRight_eq_div_pow, Nat.shiftRight_eq_div_pow, Nat.shiftRight_eq_div_pow,
      Nat.shiftRight_eq_div_pow, Nat.and_pow_two_sub_one_eq_mod,
      Nat.and_pow_two_sub_one_eq_mod, Nat.and_pow_two_sub_one_eq_mod,
      Nat.and_pow_two_sub_one_eq_mod, Nat.and_pow_two_sub_one_eq_mod,
      Nat.and_pow_two_sub_one_eq_mod, Nat.and_pow_two_sub_one_eq_mod,
      Nat.and_pow_two_sub_one_eq_mod]
  · rw [nibble_eval_eq, hrec]
    have h0 : fsub x (x % P) = 0 := by
      rw [fsub_eq_zero_iff, Nat.mod_mod_of_dvd _ dvd_rfl]
    rw [h0]

/-- Witness for C8: the theorem applied at `x = 0x12345678`, whose nibble
list evaluates to `[8, 7, 6, 5, 4, 3, 2, 1]`. -/
theorem splitNibble_generator_correct_witness :
    SplitNibbleGenerator.run_once 0x12345678 = [8, 7, 6, 5, 4, 3, 2, 1] :=
  ((splitNibble_generator_correct 0x12345678 (by decide)).1).trans (by decide)

/-- Claim C9: `deserialize ∘ serialize` is the identity for
`Split4PartsGate` (its parameters `K1, K2, K3` live in the type and are
reconstructed exactly) and for `Split4PartsGenerator` (its `row` is
written and read back), leaving the rest of the buffer untouched. -/
theorem split4_serialization_round_trip :
    (∀ g : Split4PartsGateModel,
      Split4PartsGateModel.deserialize g.K1 g.K2 g.K3 (g.serialize []) = (g, [])) ∧
    ∀ gen : Split4PartsGeneratorModel,
      Split4PartsGeneratorModel.deserialize (gen.serialize []) = some (gen, []) := by
  constructor
  · intro g
    cases g
    rfl
  · intro gen
    cases gen
    rfl

/-- Claim C10: in `ch_u8_spread` the complement `0x5555 − a` of a valid
spread-form input `a = spread 8 b` never wraps around the field modulus
(the field subtraction agrees with natural subtraction), and the result is
exactly the spread encoding of the bitwise complement of the underlying
byte `b`. -/
theorem ch_spread_complement_no_wrap (b : Nat) (hb : b < 256) :
    fsub (0x5555 % P) (spread 8 b) = 0x5555 - spread 8 b ∧
    0x5555 - spread 8 b = spread 8 (b ^^^ 0xFF) := by
  have hle := spread_le_ones 8 b
  rw [ones_eight] at hle
  constructor
  · have h5 : (0x5555 : Nat) % P = 0x5555 := Nat.mod_eq_of_lt (by rw [P_eq]; norm_num)
    rw [h5]
    exact fsub_eq_of_le _ _ hle (by rw [P_eq]; norm_num)
  · have h := spread_compl_byte 8 b
    rw [ones_eight] at h
    norm_num at h
    exact h

/-- Witness for C10: the theorem applied at the byte `b = 0xA5`. -/
theorem ch_spread_complement_no_wrap_witness :
    (0xA5 : Nat) < 256 ∧
    (fsub (0x5555 % P) (spread 8 0xA5) = 0x5555 - spread 8 0xA5 ∧
      0x5555 - spread 8 0xA5 = spread 8 (0xA5 ^^^ 0xFF)) :=
  ⟨by decide, ch_spread_complement_no_wrap 0xA5 (by decide)⟩

end PlonkySha
